import Mathlib

/-!
Verification of the CoreState repository's deduplication engine and ML
optimizer service against their natural-language specification.

The deduplication engine itself (`deduplication.py`) is not present in the
repository snapshot; only its FastAPI caller (`services/deduplication-service/main.py`)
is.  The engine, its ReferenceIndex, ChunkStore and ChunkSplitter are therefore
modelled from the specification (sections 3-4.7), while the HTTP endpoint
wrapper and the whole ML optimizer (`services/ml-optimizer/main.py`) are
translated directly from the source.
-/

namespace CoreState

/-! ### Association lists keyed by strings (shared by index and store) -/

def alookup {β : Type} : List (String × β) → String → Option β
  | [], _ => none
  | (k, v) :: rest, h => if k = h then some v else alookup rest h

def aset {β : Type} : List (String × β) → String → β → List (String × β)
  | [], h, v => [(h, v)]
  | (k, v0) :: rest, h, v => if k = h then (h, v) :: rest else (k, v0) :: aset rest h v

def aremove {β : Type} : List (String × β) → String → List (String × β)
  | [], _ => []
  | (k, v0) :: rest, h => if k = h then rest else (k, v0) :: aremove rest h

def KeysNodup {β : Type} (l : List (String × β)) : Prop :=
  (l.map Prod.fst).Nodup

/-! ### Deduplication engine data model (modelled from the spec) -/

/-- Modelled from the spec: `ReferenceEntry` (section 3) of the ReferenceIndex,
whose implementation is missing from the snapshot; fields `reference_count`
(integer, must stay nonnegative), `size_bytes`, `created_at`,
`last_accessed_at`, and the optional `tombstoned_at`. -/
structure ReferenceEntry where
  reference_count : Int
  size_bytes : Nat
  created_at : Nat
  last_accessed_at : Nat
  tombstoned_at : Option Nat
deriving DecidableEq

/-- Modelled from the spec: engine configuration (section 6 `initialize`):
maximum accepted chunk size and the reaper grace period. -/
structure Config where
  max_chunk_size : Nat
  grace_period : Nat
deriving DecidableEq

/-- Modelled from the spec: the engine state — the ReferenceIndex map, the
ChunkStore blob namespace (hash to payload bytes), and a logical clock
standing for wall-clock timestamps. -/
structure EngineState where
  config : Config
  index : List (String × ReferenceEntry)
  store : List (String × List Nat)
  clock : Nat
deriving DecidableEq

/-- Modelled from the spec: `DeduplicationResult` (section 3). -/
structure DeduplicationResult where
  chunk_id : String
  hash_value : String
  is_duplicate : Bool
  stored_size : Nat
  logical_size : Nat
deriving DecidableEq

/-- Modelled from the spec: the error taxonomy of section 7. -/
inductive DedupError where
  | InvalidInput
  | NotFound
  | ReferenceUnderflow
  | StorageBackendError
deriving DecidableEq

/-- Modelled from the spec: `HashComputer.hash(bytes) -> address` (section 4.2),
a pure deterministic content address; the concrete algorithm is a
configuration parameter, so any deterministic encoding is faithful. -/
def compute_hash (data : List Nat) : String :=
  toString data

/-- Modelled from the spec: `ChunkStore.put` (section 4.4) — a no-op for an
already-present hash (payload is immutable), otherwise stores the bytes. -/
def store_put (st : List (String × List Nat)) (h : String) (b : List Nat) :
    List (String × List Nat) :=
  match alookup st h with
  | some _ => st
  | none => (h, b) :: st

/-- Modelled from the spec: `ReferenceIndex.decrement(hash, amount)`
(section 4.3): `NotFound` if the hash is absent, `ReferenceUnderflow` if the
amount exceeds the current count; reaching 0 sets `tombstoned_at`. -/
def idxDecrement (idx : List (String × ReferenceEntry)) (h : String)
    (amount : Int) (now : Nat) :
    Except DedupError (Int × List (String × ReferenceEntry)) :=
  match alookup idx h with
  | none => .error .NotFound
  | some e =>
    if e.reference_count < amount then .error .ReferenceUnderflow
    else
      .ok (e.reference_count - amount,
           aset idx h { e with
                          reference_count := e.reference_count - amount,
                          tombstoned_at :=
                            if e.reference_count - amount = 0 then some now
                            else e.tombstoned_at })

/-- Modelled from the spec: the entry `lookup_or_create` installs on first
observation of a hash — count 1, fresh timestamps, no tombstone (section 3). -/
def freshEntry (size now : Nat) : ReferenceEntry :=
  { reference_count := 1, size_bytes := size, created_at := now,
    last_accessed_at := now, tombstoned_at := none }

/-- Modelled from the spec: `DeduplicationEngine.process_chunk` (section 4.5):
reject empty or oversized data with `InvalidInput`; on an index hit increment
the count and report a duplicate with `stored_size = 0`; on a miss create the
entry with count 1 and write to the store — `putOk` is the backend oracle
(section 4.4 retries exhausted means `putOk = false`), and on a failed put the
provisional entry is rolled back and `StorageBackendError` surfaces. -/
def process_chunk (s : EngineState) (cid : String) (data : List Nat)
    (putOk : Bool) : Except DedupError DeduplicationResult × EngineState :=
  if data.length = 0 ∨ s.config.max_chunk_size < data.length then
    (.error .InvalidInput, s)
  else
    match alookup s.index (compute_hash data) with
    | some e =>
      (.ok { chunk_id := cid, hash_value := compute_hash data,
             is_duplicate := true, stored_size := 0,
             logical_size := data.length },
       { s with
           index := aset s.index (compute_hash data)
             { e with reference_count := e.reference_count + 1,
                      last_accessed_at := s.clock, tombstoned_at := none },
           clock := s.clock + 1 })
    | none =>
      if putOk then
        (.ok { chunk_id := cid, hash_value := compute_hash data,
               is_duplicate := false, stored_size := data.length,
               logical_size := data.length },
         { s with
             index := aset s.index (compute_hash data)
               (freshEntry data.length s.clock),
             store := store_put s.store (compute_hash data) data,
             clock := s.clock + 1 })
      else
        (.error .StorageBackendError,
         { s with
             index := aremove
               (aset s.index (compute_hash data) (freshEntry data.length s.clock))
               (compute_hash data) })

/-- Modelled from the spec: `get_chunk(hash) -> bytes` (section 4.5): fails
with `NotFound` if the hash is absent or already removed, updates
`last_accessed_at` on a hit. -/
def get_chunk (s : EngineState) (h : String) :
    Except DedupError (List Nat) × EngineState :=
  match alookup s.index h with
  | none => (.error .NotFound, s)
  | some e =>
    match alookup s.store h with
    | none => (.error .NotFound, s)
    | some data =>
      (.ok data,
       { s with index := aset s.index h { e with last_accessed_at := s.clock },
                clock := s.clock + 1 })

/-- Modelled from the spec: `delete_chunk(hash) -> bool` (section 4.5):
decrements by 1 via the index `decrement`, reporting `NotFound` for an absent
hash and `ReferenceUnderflow` on excess deletes; never removes data itself. -/
def delete_chunk (s : EngineState) (h : String) :
    Except DedupError Bool × EngineState :=
  match idxDecrement s.index h 1 s.clock with
  | .error err => (.error err, s)
  | .ok (_, idx1) => (.ok true, { s with index := idx1, clock := s.clock + 1 })

/-- Modelled from the spec: `update_reference_count(hash, delta)` (section
4.5): delta may be positive or negative, with the same underflow protection as
`decrement`; returns the new count. -/
def update_reference_count (s : EngineState) (h : String) (delta : Int) :
    Except DedupError Int × EngineState :=
  match alookup s.index h with
  | none => (.error .NotFound, s)
  | some e =>
    if e.reference_count + delta < 0 then (.error .ReferenceUnderflow, s)
    else
      (.ok (e.reference_count + delta),
       { s with
           index := aset s.index h
             { e with
                 reference_count := e.reference_count + delta,
                 tombstoned_at :=
                   if e.reference_count + delta = 0 then some s.clock
                   else none },
           clock := s.clock + 1 })

/-- Modelled from the spec: whether an entry is ripe for the reaper
(section 4.6): tombstoned, grace period elapsed, and count still 0. -/
def reapable (grace now : Nat) (e : ReferenceEntry) : Prop :=
  match e.tombstoned_at with
  | some t => t + grace ≤ now ∧ e.reference_count = 0
  | none => False

instance (grace now : Nat) (e : ReferenceEntry) : Decidable (reapable grace now e) := by
  unfold reapable
  match e.tombstoned_at with
  | some _ => exact instDecidableAnd
  | none => exact instDecidableFalse

/-- Modelled from the spec: one reaper step on a single entry (section 4.6):
re-check count 0 after the grace period, then delete from the ChunkStore and
`mark_removed` in the index. -/
def reap_one (s : EngineState) (h : String) : EngineState :=
  match alookup s.index h with
  | none => s
  | some e =>
    if reapable s.config.grace_period s.clock e then
      { s with index := aremove s.index h, store := aremove s.store h,
               clock := s.clock + 1 }
    else s

/-- Operations through which callers (and the reaper) may touch the engine;
the spec makes the index mutable only through these (section 3, section 5). -/
inductive Op where
  | processOp (cid : String) (data : List Nat) (putOk : Bool)
  | getOp (h : String)
  | deleteOp (h : String)
  | updateOp (h : String) (delta : Int)
  | reapOp (h : String)

def runOp (s : EngineState) : Op → EngineState
  | .processOp cid data ok => (process_chunk s cid data ok).2
  | .getOp h => (get_chunk s h).2
  | .deleteOp h => (delete_chunk s h).2
  | .updateOp h d => (update_reference_count s h d).2
  | .reapOp h => reap_one s h

def initState (cfg : Config) : EngineState :=
  { config := cfg, index := [], store := [], clock := 0 }

def execOps (s : EngineState) (ops : List Op) : EngineState :=
  ops.foldl runOp s

/-- Every entry of the reference index carries a nonnegative count. -/
def IndexNonneg (idx : List (String × ReferenceEntry)) : Prop :=
  ∀ kv ∈ idx, 0 ≤ kv.2.reference_count

/-- The index never claims a chunk the store does not have (section 4.5). -/
def indexBackedByStore (s : EngineState) : Prop :=
  ∀ k e, alookup s.index k = some e → (alookup s.store k).isSome

/-- Index and store address exactly the same hashes. -/
def StoreConsistent (s : EngineState) : Prop :=
  ∀ k, (alookup s.index k).isSome ↔ (alookup s.store k).isSome

/-- Combined reachable-state invariant of the engine. -/
def Inv (s : EngineState) : Prop :=
  KeysNodup s.index ∧ KeysNodup s.store ∧ IndexNonneg s.index ∧ StoreConsistent s

/-- The `/deduplicate` endpoint of `services/deduplication-service/main.py`
(`deduplicate_chunk`): runs `process_chunk`, and when the result is a
duplicate additionally schedules `update_reference_count(hash, 1)` as a
background task, which runs after the response. -/
def deduplicate_endpoint (s : EngineState) (cid : String) (data : List Nat)
    (putOk : Bool) : Except DedupError DeduplicationResult × EngineState :=
  match process_chunk s cid data putOk with
  | (.ok r, s1) =>
    if r.is_duplicate then (.ok r, (update_reference_count s1 r.hash_value 1).2)
    else (.ok r, s1)
  | (.error err, s1) => (.error err, s1)

/-! ### ChunkSplitter (modelled from the spec, section 4.1) -/

/-- Modelled from the spec: the ChunkSplitter configuration
`{min_size, max_size, target_size}`; `initialize` validates
`min_size < target_size < max_size` (section 6), so a configuration carries
that validation. -/
structure SplitConfig where
  min_size : Nat
  target_size : Nat
  max_size : Nat
  valid : min_size < target_size ∧ target_size < max_size

/-- Modelled from the spec: a rolling fingerprint over the current window
(section 4.1, polynomial hash). -/
def rollingFingerprint (window : List Nat) : Nat :=
  window.foldl (fun acc b => (acc * 31 + b) % 1048583) 0

/-- Modelled from the spec: the boundary test — fingerprint against a mask
tuned so the expected chunk length equals `target_size`. -/
def maskBoundary (target : Nat) (window : List Nat) : Bool :=
  rollingFingerprint window % target = 0

/-- Modelled from the spec: the splitter loop — accumulate bytes (kept in
reverse); after `min_size` bytes a fingerprint boundary cuts, and reaching
`max_size` forces a cut; the final partial chunk is emitted, and an empty tail
emits nothing. The boundary predicate abstracts the fingerprint-plus-mask
test. -/
def splitGo (cfg : SplitConfig) (boundary : List Nat → Bool) :
    List Nat → List Nat → List (List Nat)
  | cur, [] => if cur.isEmpty then [] else [cur.reverse]
  | cur, b :: rest =>
    if cfg.max_size ≤ (b :: cur).length ∨
        (cfg.min_size ≤ (b :: cur).length ∧ boundary (b :: cur) = true) then
      (b :: cur).reverse :: splitGo cfg boundary [] rest
    else
      splitGo cfg boundary (b :: cur) rest

/-- Modelled from the spec: `ChunkSplitter` applied to a whole byte stream. -/
def splitChunks (cfg : SplitConfig) (boundary : List Nat → Bool)
    (data : List Nat) : List (List Nat) :=
  splitGo cfg boundary [] data

/-! ### ML optimizer service (`services/ml-optimizer/main.py`) -/

/-- What the trained regression model produced inside
`BackupPredictor.predict`: either it is untrained (`model is None` or
`is_trained` false), or the model evaluation yields a duration, or the
scaler/model raised and the `except` branch runs. -/
inductive PredictorEval where
  | untrained
  | evalOutput (duration : ℚ)
  | evalFailure
deriving DecidableEq

/-- Result dictionary of `BackupPredictor.predict`. -/
structure PredictOutput where
  predicted_duration : ℚ
  predicted_success_rate : ℚ
  confidence : ℚ
deriving DecidableEq

/-- `BackupPredictor.predict` (ml-optimizer `main.py`, lines 138-175):
untrained returns the defaults `(300, 0.95, 0.5)`; a trained model clamps the
duration at 30 from below and derives the success rate from the raw duration
clamped into `[0.7, 0.99]`; an internal exception returns `(300, 0.95, 0.3)`. -/
def predict : PredictorEval → PredictOutput
  | .untrained =>
    { predicted_duration := 300, predicted_success_rate := 95 / 100,
      confidence := 1 / 2 }
  | .evalOutput duration =>
    { predicted_duration := max 30 duration,
      predicted_success_rate :=
        max (7 / 10) (min (99 / 100) (1 - duration / 3600 * (1 / 10))),
      confidence := 8 / 10 }
  | .evalFailure =>
    { predicted_duration := 300, predicted_success_rate := 95 / 100,
      confidence := 3 / 10 }

/-- What the IsolationForest produced inside `AnomalyDetector.detect`: the
model's decision-function score, its label (`-1` means anomaly) and the scaled
feature vector, or an internal exception. -/
inductive DetectorEval where
  | evalOutput (score : ℚ) (predictedAnomaly : Bool) (scaled : List ℚ)
  | evalFailure
deriving DecidableEq

/-- Result dictionary of `AnomalyDetector.detect`. -/
structure DetectOutput where
  is_anomaly : Bool
  anomaly_score : ℚ
  affected_metrics : List String
  confidence : ℚ
deriving DecidableEq

def metricNames : List String :=
  ["cpu_usage", "memory_usage", "disk_io", "network_io", "backup_speed"]

/-- Names of the two metrics with the largest absolute scaled value
(`np.argsort(feature_importance)[-2:]` over the scaled vector). -/
def topTwoMetrics (scaled : List ℚ) : List String :=
  ((List.insertionSort (fun a b => |a.2| ≤ |b.2|)
    (metricNames.zip scaled)).drop (metricNames.zip scaled).length.pred.pred).map
    Prod.fst

/-- `AnomalyDetector.detect` (ml-optimizer `main.py`, lines 202-248): an
untrained detector returns the all-clear defaults without touching the model;
a trained one reports the model's score and label, naming the two most extreme
scaled metrics when anomalous; an internal exception also returns the
defaults. -/
def detect (is_trained : Bool) (ev : DetectorEval) : DetectOutput :=
  if is_trained = false then
    { is_anomaly := false, anomaly_score := 0, affected_metrics := [],
      confidence := 0 }
  else
    match ev with
    | .evalOutput score predictedAnomaly scaled =>
      { is_anomaly := predictedAnomaly, anomaly_score := score,
        affected_metrics := if predictedAnomaly then topTwoMetrics scaled else [],
        confidence := 8 / 10 }
    | .evalFailure =>
      { is_anomaly := false, anomaly_score := 0, affected_metrics := [],
        confidence := 0 }

/-! ### Exact model of IEEE binary64 arithmetic

`optimize_backup_schedule` computes its size ratio, score subtraction and
`time_reduction` in Python floats (IEEE binary64).  A finite double is exactly
a dyadic rational `m * 2 ^ e` with `|m| < 2 ^ 53` and `e ≥ -1074`, and every
binary64 operation is the exact rational result rounded to nearest, ties to
even.  `Dyadic` represents such values exactly and the operations below
implement that correct rounding with integer arithmetic (overflow to infinity
is outside the range these endpoints reach and is not modelled). -/

structure Dyadic where
  m : Int
  e : Int
deriving DecidableEq

/-- Bit length of a natural number (fuel-based so that it reduces in the
kernel; 4000 bits is far beyond any number reached here). -/
def nbitsAux : Nat → Nat → Nat
  | 0, _ => 0
  | fuel + 1, n => if n = 0 then 0 else nbitsAux fuel (n / 2) + 1

def nbits (n : Nat) : Nat := nbitsAux 4000 n

/-- Shift `m` right by `k` bits, rounding to nearest with ties to even. -/
def rshiftRNE (m : Nat) (k : Nat) : Nat :=
  if k = 0 then m
  else
    let d := 2 ^ k
    let q := m / d
    let r := m % d
    let half := d / 2
    if half < r then q + 1
    else if r < half then q
    else if q % 2 = 0 then q else q + 1

/-- Round an exact dyadic rational to the nearest binary64 value (ties to
even), limiting the significand to 53 bits and the exponent to the subnormal
floor `2 ^ -1074`. -/
def roundDouble (x : Dyadic) : Dyadic :=
  if x.m = 0 then ⟨0, 0⟩
  else
    let et := max (x.e + (nbits x.m.natAbs : Int) - 53) (-1074)
    if et ≤ x.e then x
    else
      let mr := rshiftRNE x.m.natAbs (et - x.e).toNat
      ⟨if x.m < 0 then -(mr : Int) else (mr : Int), et⟩

/-- Conversion of a Python int to a double, as performed by mixed int/float
arithmetic (rounds when the integer exceeds 53 bits). -/
def intToDouble (n : Int) : Dyadic := roundDouble ⟨n, 0⟩

/-- Binary64 multiplication: exact product, then one rounding. -/
def dmul (x y : Dyadic) : Dyadic := roundDouble ⟨x.m * y.m, x.e + y.e⟩

/-- Binary64 addition: exact sum at the common exponent, then one rounding. -/
def dadd (x y : Dyadic) : Dyadic :=
  roundDouble ⟨x.m * 2 ^ (x.e - min x.e y.e).toNat +
               y.m * 2 ^ (y.e - min x.e y.e).toNat, min x.e y.e⟩

/-- Binary64 subtraction. -/
def dsub (x y : Dyadic) : Dyadic := dadd x ⟨-y.m, y.e⟩

/-- Binary64 division: the quotient is computed with `60 + nbits |y.m|` guard
bits so the integer quotient always carries at least 55 significant bits, a
nonzero remainder is folded into the lowest (sticky) bit, and one final
rounding yields the correctly rounded IEEE result.  Division by zero cannot
occur at its call sites (the zero-total case returns before it). -/
def divDouble (x y : Dyadic) : Dyadic :=
  if x.m = 0 ∨ y.m = 0 then ⟨0, 0⟩
  else
    let s := 60 + nbits y.m.natAbs
    let q := x.m.natAbs * 2 ^ s / y.m.natAbs
    let r := x.m.natAbs * 2 ^ s % y.m.natAbs
    let q2 := if r ≠ 0 ∧ q % 2 = 0 then q + 1 else q
    roundDouble ⟨if (x.m < 0) = (y.m < 0) then (q2 : Int) else -(q2 : Int),
                 x.e - y.e - (s : Int)⟩

/-- Exact rational value of a dyadic; used only to state and reason about the
ordering and the computed constants, never in the executable paths. -/
def toRat (x : Dyadic) : ℚ := (x.m : ℚ) * (2 : ℚ) ^ x.e

/-- Value order on dyadics, decided by comparing the integer significands
scaled to a common exponent (Python compares ints and floats exactly). -/
def dle (x y : Dyadic) : Prop :=
  x.m * 2 ^ (x.e - min x.e y.e).toNat ≤ y.m * 2 ^ (y.e - min x.e y.e).toNat

instance (x y : Dyadic) : Decidable (dle x y) := Int.decLe _ _

/-- The double value of the literal `0.85` in the source. -/
def d085 : Dyadic := divDouble ⟨17, 0⟩ ⟨20, 0⟩

/-- The double value of the literal `0.2` in the source. -/
def d02 : Dyadic := divDouble ⟨1, 0⟩ ⟨5, 0⟩

/-- The double value of the literal `0.15` in the source. -/
def d015 : Dyadic := divDouble ⟨3, 0⟩ ⟨20, 0⟩

/-- A backup job dictionary as used by `optimize_backup_schedule`: the fields
the endpoint reads, each optional because the dictionaries are free-form;
their numbers are JSON integers (as in the service tests), which Python keeps
as exact ints until a float operation touches them. -/
structure Job where
  priority : Option Int
  estimated_size : Option Int
  estimated_duration : Option Int
deriving DecidableEq

/-- `optimization_score` assigned to each job:
`priority * 10 - min(10, estimated_size / 1000000)` with `priority` defaulting
to 1 and `estimated_size` to 1000000.  `priority * 10` is exact int
arithmetic; `estimated_size / 1000000` is binary64 division; `min` compares
the int 10 with that float exactly and the subtraction is exact when the int
10 wins and a binary64 subtraction otherwise. -/
def jobScore (j : Job) : Dyadic :=
  if dle ⟨10, 0⟩ (divDouble (intToDouble (j.estimated_size.getD 1000000))
      (intToDouble 1000000)) then
    ⟨j.priority.getD 1 * 10 - 10, 0⟩
  else
    dsub (intToDouble (j.priority.getD 1 * 10))
      (divDouble (intToDouble (j.estimated_size.getD 1000000))
        (intToDouble 1000000))

/-- Descending order on scored jobs, as produced by the stable Python
`sorted(..., key=score, reverse=True)`. -/
def scoreGE (a b : Job × Dyadic) : Prop :=
  dle b.2 a.2

instance : DecidableRel scoreGE :=
  fun a b => inferInstanceAs (Decidable (dle b.2 a.2))

instance : IsTotal (Job × Dyadic) scoreGE :=
  ⟨fun a b => by
    unfold scoreGE dle
    rw [min_comm a.2.e b.2.e]
    exact (le_total _ _).symm⟩

instance : IsTrans (Job × Dyadic) scoreGE := by
  constructor
  have hs : ∀ (w : Dyadic) (emin : Int), emin ≤ w.e →
      toRat w = ((w.m * 2 ^ (w.e - emin).toNat : Int) : ℚ) * (2 : ℚ) ^ emin := by
    intro w emin h
    unfold toRat
    push_cast
    rw [mul_assoc, ← zpow_natCast (2 : ℚ) (w.e - emin).toNat,
      ← zpow_add₀ (two_ne_zero)]
    congr 2
    omega
  have bridge : ∀ u v : Dyadic, dle u v ↔ toRat u ≤ toRat v := by
    intro u v
    have hpos : (0 : ℚ) < (2 : ℚ) ^ (min u.e v.e) := by positivity
    unfold dle
    rw [hs u (min u.e v.e) (min_le_left _ _),
      hs v (min u.e v.e) (min_le_right _ _), mul_le_mul_right hpos]
    exact (Int.cast_le).symm
  intro a b c h1 h2
  exact (bridge _ _).mpr (le_trans ((bridge _ _).mp h2) ((bridge _ _).mp h1))

/-- Return payload of `optimize_backup_schedule` (floats carried as their
exact dyadic values). -/
structure OptimizationResult where
  optimized_schedule : List (Job × Dyadic)
  time_reduction : Dyadic
  throughput_increase : Dyadic
  resource_efficiency : Dyadic
deriving DecidableEq

/-- Sum of `estimated_duration` (default 300) over the submitted jobs:
`total_time_before` in the source — a sum of Python ints, hence exact. -/
def totalDuration (jobs : List Job) : Int :=
  (jobs.map (fun j => j.estimated_duration.getD 300)).sum

/-- The reported `time_reduction`: `(t - t * 0.85) / t` evaluated step by step
in binary64 as the source does (`t * 0.85` converts `t` to a double and
rounds; the subtraction and the division each round once more). -/
def timeReduction (t : Int) : Dyadic :=
  divDouble (dsub (intToDouble t) (dmul (intToDouble t) d085)) (intToDouble t)

/-- `optimize_backup_schedule` (ml-optimizer `main.py`, lines 487-524): score
every job, stable-sort descending by score, and report the improvement
ratios; `time_reduction` divides by `total_time_before`, so a zero total
raises `ZeroDivisionError` (modelled as `none`, surfaced as HTTP 500). -/
def optimize_backup_schedule (jobs : List Job) : Option OptimizationResult :=
  if totalDuration jobs = 0 then none
  else
    some { optimized_schedule :=
             List.insertionSort scoreGE (jobs.map (fun j => (j, jobScore j))),
           time_reduction := timeReduction (totalDuration jobs),
           throughput_increase := d02,
           resource_efficiency := d015 }


/-- Whether an operation can create an index entry under hash `h`: only a
`process_chunk` submission whose data hashes to `h` can (sections 3 and 4.3 —
entries are created only by `lookup_or_create`). -/
def createsHash (op : Op) (h : String) : Bool :=
  match op with
  | .processOp _cid data _ok => decide (compute_hash data = h)
  | _ => false

/-! ### Association list lemmas -/

theorem alookup_cons {β : Type} (k0 : String) (v0 : β) (rest : List (String × β))
    (h : String) :
    alookup ((k0, v0) :: rest) h = if k0 = h then some v0 else alookup rest h :=
  rfl

theorem aset_cons {β : Type} (k0 : String) (v0 : β) (rest : List (String × β))
    (h : String) (v : β) :
    aset ((k0, v0) :: rest) h v =
      if k0 = h then (h, v) :: rest else (k0, v0) :: aset rest h v :=
  rfl

theorem aremove_cons {β : Type} (k0 : String) (v0 : β)
    (rest : List (String × β)) (h : String) :
    aremove ((k0, v0) :: rest) h =
      if k0 = h then rest else (k0, v0) :: aremove rest h :=
  rfl

theorem alookup_aset_self {β : Type} (l : List (String × β)) (h : String)
    (v : β) : alookup (aset l h v) h = some v := by
  induction l with
  | nil => simp [aset, alookup]
  | cons kv rest ih =>
    obtain ⟨k0, v0⟩ := kv
    rw [aset_cons]
    by_cases hk : k0 = h
    · rw [if_pos hk, alookup_cons, if_pos rfl]
    · rw [if_neg hk, alookup_cons, if_neg hk, ih]

theorem alookup_aset_ne {β : Type} (l : List (String × β)) (h k : String)
    (v : β) (hne : k ≠ h) : alookup (aset l h v) k = alookup l k := by
  have hne' : h ≠ k := fun he => hne he.symm
  induction l with
  | nil => simp [aset, alookup, hne']
  | cons kv rest ih =>
    obtain ⟨k0, v0⟩ := kv
    rw [aset_cons]
    by_cases hk : k0 = h
    · rw [if_pos hk, alookup_cons, if_neg hne', alookup_cons, if_neg]
      rw [hk]
      exact hne'
    · rw [if_neg hk, alookup_cons, alookup_cons, ih]

theorem alookup_aremove_ne {β : Type} (l : List (String × β)) (h k : String)
    (hne : k ≠ h) : alookup (aremove l h) k = alookup l k := by
  induction l with
  | nil => simp [aremove]
  | cons kv rest ih =>
    obtain ⟨k0, v0⟩ := kv
    rw [aremove_cons]
    by_cases hk : k0 = h
    · rw [if_pos hk, alookup_cons, if_neg]
      rw [hk]
      exact fun he => hne he.symm
    · rw [if_neg hk, alookup_cons, alookup_cons, ih]

theorem alookup_none_iff {β : Type} (l : List (String × β)) (h : String) :
    alookup l h = none ↔ h ∉ l.map Prod.fst := by
  induction l with
  | nil => simp [alookup]
  | cons kv rest ih =>
    obtain ⟨k0, v0⟩ := kv
    rw [alookup_cons, List.map_cons]
    by_cases hk : k0 = h
    · rw [if_pos hk]
      simp [hk]
    · rw [if_neg hk, ih]
      constructor
      · intro hnm hmem
        rcases List.mem_cons.mp hmem with he | hm2
        · exact hk he.symm
        · exact hnm hm2
      · intro hnm hmem
        exact hnm (List.mem_cons_of_mem _ hmem)

theorem alookup_aremove_none {β : Type} (l : List (String × β)) (h k : String)
    (hnone : alookup l k = none) : alookup (aremove l h) k = none := by
  induction l with
  | nil => simp [aremove, alookup]
  | cons kv rest ih =>
    obtain ⟨k0, v0⟩ := kv
    rw [alookup_cons] at hnone
    by_cases hk0 : k0 = k
    · rw [if_pos hk0] at hnone
      exact absurd hnone (by simp)
    · rw [if_neg hk0] at hnone
      rw [aremove_cons]
      by_cases hk : k0 = h
      · rw [if_pos hk]
        exact hnone
      · rw [if_neg hk, alookup_cons, if_neg hk0]
        exact ih hnone

theorem alookup_aremove_self {β : Type} (l : List (String × β)) (h : String)
    (hnd : KeysNodup l) : alookup (aremove l h) h = none := by
  induction l with
  | nil => simp [aremove, alookup]
  | cons kv rest ih =>
    obtain ⟨k0, v0⟩ := kv
    obtain ⟨hk0, hrest⟩ := List.nodup_cons.mp hnd
    rw [aremove_cons]
    by_cases hk : k0 = h
    · rw [if_pos hk]
      rw [alookup_none_iff]
      rw [← hk]
      exact hk0
    · rw [if_neg hk, alookup_cons, if_neg hk]
      exact ih hrest

theorem mem_aset {β : Type} {kv : String × β} {l : List (String × β)}
    {h : String} {v : β} (hm : kv ∈ aset l h v) : kv = (h, v) ∨ kv ∈ l := by
  induction l with
  | nil =>
    simp only [aset, List.mem_singleton] at hm
    exact Or.inl hm
  | cons kv0 rest ih =>
    obtain ⟨k0, v0⟩ := kv0
    rw [aset_cons] at hm
    by_cases hk : k0 = h
    · rw [if_pos hk] at hm
      rcases List.mem_cons.mp hm with hh | hh
      · exact Or.inl hh
      · exact Or.inr (List.mem_cons_of_mem _ hh)
    · rw [if_neg hk] at hm
      rcases List.mem_cons.mp hm with hh | hh
      · exact Or.inr (hh ▸ List.mem_cons_self _ _)
      · rcases ih hh with hh2 | hh2
        · exact Or.inl hh2
        · exact Or.inr (List.mem_cons_of_mem _ hh2)

theorem mem_aremove {β : Type} {kv : String × β} {l : List (String × β)}
    {h : String} (hm : kv ∈ aremove l h) : kv ∈ l := by
  induction l with
  | nil => simp [aremove] at hm
  | cons kv0 rest ih =>
    obtain ⟨k0, v0⟩ := kv0
    rw [aremove_cons] at hm
    by_cases hk : k0 = h
    · rw [if_pos hk] at hm
      exact List.mem_cons_of_mem _ hm
    · rw [if_neg hk] at hm
      rcases List.mem_cons.mp hm with hh | hh
      · exact hh ▸ List.mem_cons_self _ _
      · exact List.mem_cons_of_mem _ (ih hh)

theorem alookup_mem {β : Type} {l : List (String × β)} {h : String} {v : β}
    (hl : alookup l h = some v) : (h, v) ∈ l := by
  induction l with
  | nil => simp [alookup] at hl
  | cons kv0 rest ih =>
    obtain ⟨k0, v0⟩ := kv0
    rw [alookup_cons] at hl
    by_cases hk : k0 = h
    · rw [if_pos hk] at hl
      have hv : v0 = v := by simpa using hl
      subst hk
      subst hv
      exact List.mem_cons_self _ _
    · rw [if_neg hk] at hl
      exact List.mem_cons_of_mem _ (ih hl)

theorem mem_keys_aset {β : Type} {l : List (String × β)} {h k : String}
    {v : β} (hm : k ∈ (aset l h v).map Prod.fst) :
    k = h ∨ k ∈ l.map Prod.fst := by
  rw [List.mem_map] at hm
  obtain ⟨kv, hkv, hfst⟩ := hm
  rcases mem_aset hkv with hh | hh
  · left
    rw [← hfst, hh]
  · right
    rw [← hfst]
    exact List.mem_map_of_mem Prod.fst hh

theorem keysNodup_aset {β : Type} {l : List (String × β)} (h : String)
    (v : β) (hnd : KeysNodup l) : KeysNodup (aset l h v) := by
  induction l with
  | nil => simp [aset, KeysNodup]
  | cons kv0 rest ih =>
    obtain ⟨k0, v0⟩ := kv0
    obtain ⟨hk0, hrest⟩ := List.nodup_cons.mp hnd
    unfold KeysNodup
    rw [aset_cons]
    by_cases hk : k0 = h
    · rw [if_pos hk, List.map_cons]
      refine List.nodup_cons.mpr ⟨?_, hrest⟩
      rw [← hk]
      exact hk0
    · rw [if_neg hk, List.map_cons]
      refine List.nodup_cons.mpr ⟨?_, ih hrest⟩
      intro hmem
      rcases mem_keys_aset hmem with hh | hh
      · exact hk hh
      · exact hk0 hh

theorem aremove_sublist {β : Type} (l : List (String × β)) (h : String) :
    List.Sublist (aremove l h) l := by
  induction l with
  | nil => simp [aremove]
  | cons kv0 rest ih =>
    obtain ⟨k0, v0⟩ := kv0
    rw [aremove_cons]
    by_cases hk : k0 = h
    · rw [if_pos hk]
      exact List.sublist_cons_self _ _
    · rw [if_neg hk]
      exact List.Sublist.cons₂ _ ih

theorem keysNodup_aremove {β : Type} {l : List (String × β)} (h : String)
    (hnd : KeysNodup l) : KeysNodup (aremove l h) :=
  List.Nodup.sublist (List.Sublist.map Prod.fst (aremove_sublist l h)) hnd

theorem aremove_aset_none {β : Type} (l : List (String × β)) (h : String)
    (v : β) (hnone : alookup l h = none) : aremove (aset l h v) h = l := by
  induction l with
  | nil => simp [aset, aremove]
  | cons kv0 rest ih =>
    obtain ⟨k0, v0⟩ := kv0
    rw [alookup_cons] at hnone
    by_cases hk : k0 = h
    · rw [if_pos hk] at hnone
      exact absurd hnone (by simp)
    · rw [if_neg hk] at hnone
      rw [aset_cons, if_neg hk, aremove_cons, if_neg hk, ih hnone]

/-! ### Engine invariant preservation -/

theorem store_none_of_index_none {s : EngineState} {h : String}
    (hsc : StoreConsistent s) (hidx : alookup s.index h = none) :
    alookup s.store h = none := by
  cases hst : alookup s.store h with
  | none => rfl
  | some d =>
    have hiff := hsc h
    rw [hidx, hst] at hiff
    simp at hiff

theorem store_isSome_of_index_some {s : EngineState} {h : String}
    {e : ReferenceEntry} (hsc : StoreConsistent s)
    (hidx : alookup s.index h = some e) : (alookup s.store h).isSome := by
  have hiff := hsc h
  rw [hidx] at hiff
  exact hiff.mp (by simp)

theorem inv_process (s : EngineState) (cid : String) (data : List Nat)
    (putOk : Bool) (hI : Inv s) : Inv (process_chunk s cid data putOk).2 := by
  obtain ⟨hnd, hnds, hnn, hsc⟩ := hI
  unfold process_chunk
  split
  · exact ⟨hnd, hnds, hnn, hsc⟩
  split
  case h_1 e heq =>
    refine ⟨keysNodup_aset _ _ hnd, hnds, ?_, ?_⟩
    · intro kv hm
      rcases mem_aset hm with hh | hh
      · have h0 : 0 ≤ e.reference_count := hnn _ (alookup_mem heq)
        rw [hh]
        show 0 ≤ e.reference_count + 1
        omega
      · exact hnn _ hh
    · intro k
      by_cases hkh : k = compute_hash data
      · subst hkh
        rw [alookup_aset_self]
        have := store_isSome_of_index_some hsc heq
        simpa using this
      · rw [alookup_aset_ne _ _ _ _ hkh]
        exact hsc k
  case h_2 heq =>
    split
    · have hstn : alookup s.store (compute_hash data) = none :=
        store_none_of_index_none hsc heq
      have hput : store_put s.store (compute_hash data) data =
          (compute_hash data, data) :: s.store := by
        unfold store_put
        rw [hstn]
      refine ⟨keysNodup_aset _ _ hnd, ?_, ?_, ?_⟩
      · show KeysNodup (store_put s.store (compute_hash data) data)
        rw [hput]
        unfold KeysNodup
        rw [List.map_cons]
        exact List.nodup_cons.mpr ⟨(alookup_none_iff _ _).mp hstn, hnds⟩
      · intro kv hm
        rcases mem_aset hm with hh | hh
        · rw [hh]
          show (0 : Int) ≤ 1
          omega
        · exact hnn _ hh
      · intro k
        by_cases hkh : k = compute_hash data
        · subst hkh
          rw [alookup_aset_self]
          show _ ↔ (alookup (store_put s.store (compute_hash data) data) _).isSome
          rw [hput, alookup_cons, if_pos rfl]
          simp
        · rw [alookup_aset_ne _ _ _ _ hkh]
          show _ ↔ (alookup (store_put s.store (compute_hash data) data) k).isSome
          rw [hput, alookup_cons, if_neg (fun he => hkh he.symm)]
          exact hsc k
    · rw [aremove_aset_none _ _ _ heq]
      exact ⟨hnd, hnds, hnn, hsc⟩

theorem inv_get (s : EngineState) (h : String) (hI : Inv s) :
    Inv (get_chunk s h).2 := by
  obtain ⟨hnd, hnds, hnn, hsc⟩ := hI
  unfold get_chunk
  split
  · exact ⟨hnd, hnds, hnn, hsc⟩
  case h_2 e heq =>
    split
    · exact ⟨hnd, hnds, hnn, hsc⟩
    case h_2 d heqs =>
      refine ⟨keysNodup_aset _ _ hnd, hnds, ?_, ?_⟩
      · intro kv hm
        rcases mem_aset hm with hh | hh
        · have h0 : 0 ≤ e.reference_count := hnn _ (alookup_mem heq)
          rw [hh]
          exact h0
        · exact hnn _ hh
      · intro k
        by_cases hkh : k = h
        · subst hkh
          rw [alookup_aset_self]
          have := store_isSome_of_index_some hsc heq
          simpa using this
        · rw [alookup_aset_ne _ _ _ _ hkh]
          exact hsc k

theorem idxDecrement_ok {idx : List (String × ReferenceEntry)} {h : String}
    {amount : Int} {now : Nat} {n : Int}
    {idx1 : List (String × ReferenceEntry)}
    (hok : idxDecrement idx h amount now = .ok (n, idx1)) :
    ∃ e, alookup idx h = some e ∧ ¬ e.reference_count < amount ∧
      n = e.reference_count - amount ∧
      idx1 = aset idx h
        { e with
            reference_count := e.reference_count - amount,
            tombstoned_at :=
              if e.reference_count - amount = 0 then some now
              else e.tombstoned_at } := by
  unfold idxDecrement at hok
  split at hok
  · exact absurd hok (by simp)
  case h_2 e heq =>
    split at hok
    · exact absurd hok (by simp)
    case isFalse hlt =>
      obtain ⟨h1, h2⟩ : e.reference_count - amount = n ∧ _ = idx1 := by
        simpa using hok
      exact ⟨e, heq, hlt, h1.symm, h2.symm⟩

theorem inv_delete (s : EngineState) (h : String) (hI : Inv s) :
    Inv (delete_chunk s h).2 := by
  obtain ⟨hnd, hnds, hnn, hsc⟩ := hI
  unfold delete_chunk
  cases hdec : idxDecrement s.index h 1 s.clock with
  | error err =>
    exact ⟨hnd, hnds, hnn, hsc⟩
  | ok p =>
    obtain ⟨n, idx1⟩ := p
    obtain ⟨e, heq, hlt, hn, hidx1⟩ := idxDecrement_ok hdec
    subst hidx1
    refine ⟨keysNodup_aset _ _ hnd, hnds, ?_, ?_⟩
    · intro kv hm
      rcases mem_aset hm with hh | hh
      · rw [hh]
        show 0 ≤ e.reference_count - 1
        omega
      · exact hnn _ hh
    · intro k
      by_cases hkh : k = h
      · subst hkh
        rw [alookup_aset_self]
        have := store_isSome_of_index_some hsc heq
        simpa using this
      · rw [alookup_aset_ne _ _ _ _ hkh]
        exact hsc k

theorem inv_update (s : EngineState) (h : String) (delta : Int)
    (hI : Inv s) : Inv (update_reference_count s h delta).2 := by
  obtain ⟨hnd, hnds, hnn, hsc⟩ := hI
  unfold update_reference_count
  split
  · exact ⟨hnd, hnds, hnn, hsc⟩
  case h_2 e heq =>
    split
    · exact ⟨hnd, hnds, hnn, hsc⟩
    case isFalse hlt =>
      refine ⟨keysNodup_aset _ _ hnd, hnds, ?_, ?_⟩
      · intro kv hm
        rcases mem_aset hm with hh | hh
        · rw [hh]
          show 0 ≤ e.reference_count + delta
          omega
        · exact hnn _ hh
      · intro k
        by_cases hkh : k = h
        · subst hkh
          rw [alookup_aset_self]
          have := store_isSome_of_index_some hsc heq
          simpa using this
        · rw [alookup_aset_ne _ _ _ _ hkh]
          exact hsc k

theorem inv_reap (s : EngineState) (h : String) (hI : Inv s) :
    Inv (reap_one s h) := by
  obtain ⟨hnd, hnds, hnn, hsc⟩ := hI
  unfold reap_one
  split
  · exact ⟨hnd, hnds, hnn, hsc⟩
  case h_2 e heq =>
    split
    · refine ⟨keysNodup_aremove _ hnd, keysNodup_aremove _ hnds, ?_, ?_⟩
      · intro kv hm
        exact hnn _ (mem_aremove hm)
      · intro k
        by_cases hkh : k = h
        · subst hkh
          rw [alookup_aremove_self _ _ hnd, alookup_aremove_self _ _ hnds]
          rfl
        · rw [alookup_aremove_ne _ _ _ hkh, alookup_aremove_ne _ _ _ hkh]
          exact hsc k
    · exact ⟨hnd, hnds, hnn, hsc⟩

theorem inv_runOp (s : EngineState) (op : Op) (hI : Inv s) :
    Inv (runOp s op) := by
  cases op with
  | processOp cid data ok => exact inv_process s cid data ok hI
  | getOp h => exact inv_get s h hI
  | deleteOp h => exact inv_delete s h hI
  | updateOp h d => exact inv_update s h d hI
  | reapOp h => exact inv_reap s h hI

theorem execOps_cons (s : EngineState) (op : Op) (rest : List Op) :
    execOps s (op :: rest) = execOps (runOp s op) rest :=
  rfl

theorem inv_execOps (s : EngineState) (ops : List Op) (hI : Inv s) :
    Inv (execOps s ops) := by
  induction ops generalizing s with
  | nil => exact hI
  | cons op rest ih =>
    rw [execOps_cons]
    exact ih _ (inv_runOp s op hI)

theorem inv_init (cfg : Config) : Inv (initState cfg) := by
  refine ⟨?_, ?_, ?_, ?_⟩
  · simp [initState, KeysNodup]
  · simp [initState, KeysNodup]
  · intro kv hm
    simp [initState] at hm
  · intro k
    simp [initState, alookup]

theorem inv_reachable (cfg : Config) (ops : List Op) :
    Inv (execOps (initState cfg) ops) :=
  inv_execOps _ _ (inv_init cfg)

theorem not_created_lookup_none (s : EngineState) (op : Op) (h : String)
    (hn : alookup s.index h = none) (hc : createsHash op h = false) :
    alookup (runOp s op).index h = none := by
  cases op with
  | processOp cid data ok =>
    have hne : h ≠ compute_hash data := by
      intro he
      simp [createsHash, he.symm] at hc
    show alookup (process_chunk s cid data ok).2.index h = none
    unfold process_chunk
    split
    · exact hn
    split
    case h_1 e heq =>
      show alookup (aset s.index (compute_hash data) _) h = none
      rw [alookup_aset_ne _ _ _ _ hne]
      exact hn
    case h_2 heq =>
      split
      · show alookup (aset s.index (compute_hash data) _) h = none
        rw [alookup_aset_ne _ _ _ _ hne]
        exact hn
      · show alookup (aremove (aset s.index (compute_hash data) _)
          (compute_hash data)) h = none
        rw [alookup_aremove_ne _ _ _ hne, alookup_aset_ne _ _ _ _ hne]
        exact hn
  | getOp h0 =>
    show alookup (get_chunk s h0).2.index h = none
    unfold get_chunk
    split
    · exact hn
    case h_2 e heq =>
      split
      · exact hn
      have hne : h ≠ h0 := by
        intro he
        rw [← he, hn] at heq
        exact absurd heq (by simp)
      show alookup (aset s.index h0 _) h = none
      rw [alookup_aset_ne _ _ _ _ hne]
      exact hn
  | deleteOp h0 =>
    show alookup (delete_chunk s h0).2.index h = none
    unfold delete_chunk
    cases hdec : idxDecrement s.index h0 1 s.clock with
    | error err => exact hn
    | ok p =>
      obtain ⟨n, idx1⟩ := p
      obtain ⟨e, heq, hlt, hne2, hidx1⟩ := idxDecrement_ok hdec
      subst hidx1
      have hne : h ≠ h0 := by
        intro he
        rw [← he, hn] at heq
        exact absurd heq (by simp)
      show alookup (aset s.index h0 _) h = none
      rw [alookup_aset_ne _ _ _ _ hne]
      exact hn
  | updateOp h0 d =>
    show alookup (update_reference_count s h0 d).2.index h = none
    unfold update_reference_count
    split
    · exact hn
    case h_2 e heq =>
      split
      · exact hn
      have hne : h ≠ h0 := by
        intro he
        rw [← he, hn] at heq
        exact absurd heq (by simp)
      show alookup (aset s.index h0 _) h = none
      rw [alookup_aset_ne _ _ _ _ hne]
      exact hn
  | reapOp h0 =>
    show alookup (reap_one s h0).index h = none
    unfold reap_one
    split
    · exact hn
    split
    · show alookup (aremove s.index h0) h = none
      exact alookup_aremove_none _ _ _ hn
    · exact hn

theorem not_created_execOps_none (s : EngineState) (ops : List Op)
    (h : String) (hn : alookup s.index h = none)
    (hall : ∀ op ∈ ops, createsHash op h = false) :
    alookup (execOps s ops).index h = none := by
  induction ops generalizing s with
  | nil => exact hn
  | cons op rest ih =>
    rw [execOps_cons]
    exact ih _ (not_created_lookup_none s op h hn
      (hall op (List.mem_cons_self _ _)))
      (fun op2 hm => hall op2 (List.mem_cons_of_mem _ hm))

theorem store_put_of_none {st : List (String × List Nat)} {h : String}
    (b : List Nat) (hn : alookup st h = none) :
    store_put st h b = (h, b) :: st := by
  unfold store_put
  rw [hn]

theorem store_put_of_some {st : List (String × List Nat)} {h : String}
    {d : List Nat} (b : List Nat) (hd : alookup st h = some d) :
    store_put st h b = st := by
  unfold store_put
  rw [hd]

theorem store_put_lookup_self (st : List (String × List Nat)) (h : String)
    (b : List Nat) : (alookup (store_put st h b) h).isSome := by
  cases hst : alookup st h with
  | none =>
    rw [store_put_of_none b hst, alookup_cons, if_pos rfl]
    rfl
  | some d =>
    rw [store_put_of_some b hst, hst]
    rfl

theorem store_put_lookup_ne (st : List (String × List Nat)) (h k : String)
    (b : List Nat) (hne : k ≠ h) :
    alookup (store_put st h b) k = alookup st k := by
  cases hst : alookup st h with
  | none =>
    rw [store_put_of_none b hst, alookup_cons, if_neg (fun he => hne he.symm)]
  | some d =>
    rw [store_put_of_some b hst]

/-! ### ChunkSplitter lemmas -/

theorem splitGo_nil (cfg : SplitConfig) (boundary : List Nat → Bool)
    (cur : List Nat) :
    splitGo cfg boundary cur [] = if cur.isEmpty then [] else [cur.reverse] :=
  rfl

theorem splitGo_cons (cfg : SplitConfig) (boundary : List Nat → Bool)
    (cur : List Nat) (b : Nat) (rest : List Nat) :
    splitGo cfg boundary cur (b :: rest) =
      if cfg.max_size ≤ (b :: cur).length ∨
          (cfg.min_size ≤ (b :: cur).length ∧ boundary (b :: cur) = true) then
        (b :: cur).reverse :: splitGo cfg boundary [] rest
      else splitGo cfg boundary (b :: cur) rest :=
  rfl

theorem splitGo_short (cfg : SplitConfig) (boundary : List Nat → Bool) :
    ∀ rest cur : List Nat, cur.length + rest.length < cfg.min_size →
      cur ≠ [] ∨ rest ≠ [] →
      splitGo cfg boundary cur rest = [cur.reverse ++ rest] := by
  intro rest
  induction rest with
  | nil =>
    intro cur hlen hne
    rcases hne with hne | hne
    · rw [splitGo_nil, if_neg (by simpa [List.isEmpty_iff] using hne),
        List.append_nil]
    · exact absurd rfl hne
  | cons b rs ih =>
    intro cur hlen hne
    have hmm : cfg.min_size < cfg.max_size := lt_trans cfg.valid.1 cfg.valid.2
    have hlt : (b :: cur).length < cfg.min_size := by
      simp only [List.length_cons]
      simp only [List.length_cons] at hlen
      omega
    have hcond : ¬ (cfg.max_size ≤ (b :: cur).length ∨
        (cfg.min_size ≤ (b :: cur).length ∧ boundary (b :: cur) = true)) := by
      push_neg
      refine ⟨by omega, ?_⟩
      intro hge
      exfalso
      omega
    rw [splitGo_cons, if_neg hcond,
      ih (b :: cur) (by simp only [List.length_cons] at hlen ⊢; omega)
        (Or.inl (by simp))]
    simp [List.append_assoc]

theorem process_new_then_get (s : EngineState) (cid : String)
    (data : List Nat) (putOk : Bool) (r : DeduplicationResult)
    (hsc : StoreConsistent s)
    (hok : (process_chunk s cid data putOk).1 = .ok r)
    (hnew : r.is_duplicate = false) :
    (get_chunk (process_chunk s cid data putOk).2 r.hash_value).1
      = .ok data := by
  unfold process_chunk at hok ⊢
  by_cases hval : data.length = 0 ∨ s.config.max_chunk_size < data.length
  · rw [if_pos hval] at hok
    simp at hok
  rw [if_neg hval] at hok ⊢
  cases heq : alookup s.index (compute_hash data) with
  | some e =>
    rw [heq] at hok
    have hr := Except.ok.inj hok
    rw [← hr] at hnew
    exact absurd hnew (by simp)
  | none =>
    rw [heq] at hok
    cases putOk with
    | false => simp at hok
    | true =>
      rw [if_pos rfl] at hok ⊢
      have hr := Except.ok.inj hok
      subst hr
      have hstn : alookup s.store (compute_hash data) = none :=
        store_none_of_index_none hsc heq
      have hsl : alookup ((compute_hash data, data) :: s.store)
          (compute_hash data) = some data := by
        rw [alookup_cons, if_pos rfl]
      unfold get_chunk
      simp only [alookup_aset_self, store_put_of_none data hstn, hsl]

/-! ### Claim theorems -/

/-- C1: submitting identical data twice through the `/deduplicate` endpoint
reports `is_duplicate = false` then `is_duplicate = true` with
`stored_size = 0` on the duplicate, but the endpoint's extra background
`update_reference_count(hash, 1)` drives the reference count to 3, not the
2 the claim (and the spec's dedup-correctness property) demand; the bare
engine `process_chunk`, as specified, leaves it at exactly 2. -/
theorem C1_endpoint_extra_increment :
    ((deduplicate_endpoint (initState ⟨1024, 10⟩) "c1" [1, 2, 3] true).1.toOption.map
      (fun r => r.is_duplicate) = some false) ∧
    ((deduplicate_endpoint
        ((deduplicate_endpoint (initState ⟨1024, 10⟩) "c1" [1, 2, 3] true).2)
        "c2" [1, 2, 3] true).1.toOption.map
      (fun r => (r.is_duplicate, r.stored_size)) = some (true, 0)) ∧
    ((alookup (deduplicate_endpoint
        ((deduplicate_endpoint (initState ⟨1024, 10⟩) "c1" [1, 2, 3] true).2)
        "c2" [1, 2, 3] true).2.index (compute_hash [1, 2, 3])).map
      (fun e => e.reference_count) = some 3) ∧
    ((alookup (process_chunk
        ((process_chunk (initState ⟨1024, 10⟩) "c1" [1, 2, 3] true).2)
        "c2" [1, 2, 3] true).2.index (compute_hash [1, 2, 3])).map
      (fun e => e.reference_count) = some 2) := by
  decide

/-- C2: every reachable state of the reference index carries only nonnegative
reference counts, and a decrement whose amount exceeds the current count —
whether through `update_reference_count` with a negative delta or through an
excess `delete_chunk` — fails with `ReferenceUnderflow` and leaves the state
untouched. -/
theorem C2_refcount_never_negative :
    (∀ (cfg : Config) (ops : List Op),
       IndexNonneg (execOps (initState cfg) ops).index) ∧
    (∀ (s : EngineState) (h : String) (e : ReferenceEntry) (amount : Int),
       alookup s.index h = some e → e.reference_count < amount →
       update_reference_count s h (-amount)
         = (.error .ReferenceUnderflow, s)) ∧
    (∀ (s : EngineState) (h : String) (e : ReferenceEntry),
       alookup s.index h = some e → e.reference_count < 1 →
       delete_chunk s h = (.error .ReferenceUnderflow, s)) := by
  refine ⟨?_, ?_, ?_⟩
  · intro cfg ops
    exact (inv_reachable cfg ops).2.2.1
  · intro s h e amount heq hlt
    have hneg : e.reference_count + -amount < 0 := by omega
    unfold update_reference_count
    simp only [heq, if_pos hneg]
  · intro s h e heq hlt
    unfold delete_chunk idxDecrement
    simp only [heq, if_pos hlt]

/-- C2 witness: a concrete reachable state with a nonnegative count, and a
concrete zero-count entry on which both excess decrements fail with
`ReferenceUnderflow` without touching the state. -/
theorem C2_refcount_never_negative_witness :
    IndexNonneg (execOps (initState ⟨10, 5⟩) [Op.processOp "a" [1] true]).index ∧
    alookup (EngineState.mk ⟨10, 5⟩ [("k", ⟨0, 1, 0, 0, some 0⟩)]
      [("k", [5])] 1).index "k" = some ⟨0, 1, 0, 0, some 0⟩ ∧
    (ReferenceEntry.mk 0 1 0 0 (some 0)).reference_count < 2 ∧
    update_reference_count
      (EngineState.mk ⟨10, 5⟩ [("k", ⟨0, 1, 0, 0, some 0⟩)] [("k", [5])] 1)
      "k" (-2)
      = (.error .ReferenceUnderflow,
         EngineState.mk ⟨10, 5⟩ [("k", ⟨0, 1, 0, 0, some 0⟩)] [("k", [5])] 1) ∧
    (ReferenceEntry.mk 0 1 0 0 (some 0)).reference_count < 1 ∧
    delete_chunk
      (EngineState.mk ⟨10, 5⟩ [("k", ⟨0, 1, 0, 0, some 0⟩)] [("k", [5])] 1) "k"
      = (.error .ReferenceUnderflow,
         EngineState.mk ⟨10, 5⟩ [("k", ⟨0, 1, 0, 0, some 0⟩)] [("k", [5])] 1) :=
  ⟨C2_refcount_never_negative.1 ⟨10, 5⟩ [Op.processOp "a" [1] true],
   by decide, by decide,
   C2_refcount_never_negative.2.1 _ "k" ⟨0, 1, 0, 0, some 0⟩ 2
     (by decide) (by decide),
   by decide,
   C2_refcount_never_negative.2.2 _ "k" ⟨0, 1, 0, 0, some 0⟩
     (by decide) (by decide)⟩

/-- C3: `process_chunk` preserves the property that the index never claims a
chunk the store does not have, and whenever it fails with
`StorageBackendError` it has rolled the provisional index entry back, leaving
the state exactly as before the call. -/
theorem C3_put_failure_rolls_back (s : EngineState) (cid : String)
    (data : List Nat) (putOk : Bool) (hb : indexBackedByStore s) :
    indexBackedByStore (process_chunk s cid data putOk).2 ∧
    ((process_chunk s cid data putOk).1 = .error .StorageBackendError →
      (process_chunk s cid data putOk).2 = s) := by
  unfold process_chunk
  split
  · exact ⟨hb, fun _ => rfl⟩
  split
  case h_1 e heq =>
    constructor
    · intro k e2 hk2
      by_cases hkh : k = compute_hash data
      · subst hkh
        exact hb _ _ heq
      · rw [alookup_aset_ne _ _ _ _ hkh] at hk2
        exact hb _ _ hk2
    · intro habs
      exact absurd habs (by simp)
  case h_2 heq =>
    split
    · constructor
      · intro k e2 hk2
        by_cases hkh : k = compute_hash data
        · subst hkh
          exact store_put_lookup_self _ _ _
        · rw [alookup_aset_ne _ _ _ _ hkh] at hk2
          rw [store_put_lookup_ne _ _ _ _ hkh]
          exact hb _ _ hk2
      · intro habs
        exact absurd habs (by simp)
    · rw [aremove_aset_none _ _ _ heq]
      exact ⟨hb, fun _ => rfl⟩

/-- C3 witness: on the empty engine a failed backend put surfaces
`StorageBackendError` and leaves the state exactly as it was. -/
theorem C3_put_failure_rolls_back_witness :
    indexBackedByStore (initState ⟨16, 2⟩) ∧
    (process_chunk (initState ⟨16, 2⟩) "c" [9] false).1
      = .error .StorageBackendError ∧
    (process_chunk (initState ⟨16, 2⟩) "c" [9] false).2 = initState ⟨16, 2⟩ := by
  have hb : indexBackedByStore (initState ⟨16, 2⟩) := by
    intro k e hk
    simp [initState, alookup] at hk
  exact ⟨hb, rfl,
    (C3_put_failure_rolls_back (initState ⟨16, 2⟩) "c" [9] false hb).2 rfl⟩

/-- C4: for a hash that no operation of the run ever submitted, `get_chunk`
and `delete_chunk` both fail with `NotFound` and leave the whole engine state
unchanged. -/
theorem C4_never_submitted_not_found (cfg : Config) (ops : List Op)
    (h : String) (hall : ∀ op ∈ ops, createsHash op h = false) :
    get_chunk (execOps (initState cfg) ops) h
      = (.error .NotFound, execOps (initState cfg) ops) ∧
    delete_chunk (execOps (initState cfg) ops) h
      = (.error .NotFound, execOps (initState cfg) ops) := by
  have hn : alookup (execOps (initState cfg) ops).index h = none :=
    not_created_execOps_none _ _ _ (by simp [initState, alookup]) hall
  constructor
  · unfold get_chunk
    rw [hn]
  · unfold delete_chunk idxDecrement
    rw [hn]

/-- C4 witness: after one submission of other data, a never-submitted hash is
`NotFound` for both reads and deletes, with the state unchanged. -/
theorem C4_never_submitted_not_found_witness :
    (∀ op ∈ [Op.processOp "a" [1] true], createsHash op "zz" = false) ∧
    get_chunk (execOps (initState ⟨4, 2⟩) [Op.processOp "a" [1] true]) "zz"
      = (.error .NotFound, execOps (initState ⟨4, 2⟩) [Op.processOp "a" [1] true]) ∧
    delete_chunk (execOps (initState ⟨4, 2⟩) [Op.processOp "a" [1] true]) "zz"
      = (.error .NotFound, execOps (initState ⟨4, 2⟩) [Op.processOp "a" [1] true]) :=
  ⟨by decide,
   (C4_never_submitted_not_found ⟨4, 2⟩ [Op.processOp "a" [1] true] "zz"
     (by decide)).1,
   (C4_never_submitted_not_found ⟨4, 2⟩ [Op.processOp "a" [1] true] "zz"
     (by decide)).2⟩

/-- C5: in any reachable engine state, once `process_chunk` returns
`is_duplicate = false` for some hash, an immediately following `get_chunk`
for that hash succeeds and returns the submitted bytes (read-your-writes). -/
theorem C5_read_your_writes (cfg : Config) (ops : List Op) (cid : String)
    (data : List Nat) (putOk : Bool) (r : DeduplicationResult)
    (hok : (process_chunk (execOps (initState cfg) ops) cid data putOk).1
      = .ok r)
    (hnew : r.is_duplicate = false) :
    (get_chunk (process_chunk (execOps (initState cfg) ops) cid data putOk).2
      r.hash_value).1 = .ok data :=
  process_new_then_get _ cid data putOk r (inv_reachable cfg ops).2.2.2 hok hnew

/-- C5 witness: a fresh submission on the empty engine followed by a read of
its hash returns the submitted bytes. -/
theorem C5_read_your_writes_witness :
    (process_chunk (execOps (initState ⟨16, 3⟩) []) "c" [1, 2] true).1
      = .ok ⟨"c", compute_hash [1, 2], false, 2, 2⟩ ∧
    (DeduplicationResult.mk "c" (compute_hash [1, 2]) false 2 2).is_duplicate
      = false ∧
    (get_chunk (process_chunk (execOps (initState ⟨16, 3⟩) []) "c" [1, 2] true).2
      (DeduplicationResult.mk "c" (compute_hash [1, 2]) false 2 2).hash_value).1
      = .ok [1, 2] :=
  ⟨rfl, rfl,
   C5_read_your_writes ⟨16, 3⟩ [] "c" [1, 2] true
     ⟨"c", compute_hash [1, 2], false, 2, 2⟩ rfl rfl⟩

/-- C6: with a validated configuration and positive `min_size`, the splitter
yields exactly one chunk — the whole stream — for a non-empty stream shorter
than `min_size`, and yields zero chunks for the empty stream. -/
theorem C6_splitter_edge_cases (cfg : SplitConfig)
    (boundary : List Nat → Bool) (data : List Nat)
    (_hmin : 0 < cfg.min_size) (hne : data ≠ [])
    (hshort : data.length < cfg.min_size) :
    splitChunks cfg boundary data = [data] ∧
    splitChunks cfg boundary [] = [] := by
  constructor
  · unfold splitChunks
    rw [splitGo_short cfg boundary data [] (by simpa using hshort)
      (Or.inr hne)]
    simp
  · rfl

/-- C6 witness: the configuration `{min 2, target 3, max 4}` with the mask
boundary splits the one-byte stream `[7]` into exactly that one chunk and the
empty stream into no chunks. -/
theorem C6_splitter_edge_cases_witness :
    0 < (2 : Nat) ∧ ([7] : List Nat) ≠ [] ∧ ([7] : List Nat).length < 2 ∧
    splitChunks ⟨2, 3, 4, by decide⟩ (maskBoundary 3) [7] = [[7]] ∧
    splitChunks ⟨2, 3, 4, by decide⟩ (maskBoundary 3) [] = [] :=
  ⟨by decide, by decide, by decide,
   (C6_splitter_edge_cases ⟨2, 3, 4, by decide⟩ (maskBoundary 3) [7]
     (by decide) (by decide) (by decide)).1,
   (C6_splitter_edge_cases ⟨2, 3, 4, by decide⟩ (maskBoundary 3) [7]
     (by decide) (by decide) (by decide)).2⟩

/-- C7: `ChunkStore.put` is idempotent — for a hash already present the call
is a no-op leaving the store unchanged, and repeating the same put yields the
same store as doing it once. -/
theorem C7_put_idempotent (st : List (String × List Nat)) (h : String)
    (b : List Nat) :
    ((alookup st h).isSome → store_put st h b = st) ∧
    store_put (store_put st h b) h b = store_put st h b := by
  constructor
  · intro hs
    cases hst : alookup st h with
    | none =>
      rw [hst] at hs
      simp at hs
    | some d => exact store_put_of_some b hst
  · cases hst : alookup st h with
    | some d =>
      rw [store_put_of_some b hst, store_put_of_some b hst]
    | none =>
      rw [store_put_of_none b hst]
      exact store_put_of_some b (by rw [alookup_cons, if_pos rfl])

/-- C7 witness: a store already holding hash `a` is untouched by another put
of `a`, and a double put equals a single put. -/
theorem C7_put_idempotent_witness :
    (alookup ([("a", [1])] : List (String × List Nat)) "a").isSome ∧
    store_put ([("a", [1])] : List (String × List Nat)) "a" [2] = [("a", [1])] ∧
    store_put (store_put ([("a", [1])] : List (String × List Nat)) "a" [2])
      "a" [2] = store_put ([("a", [1])] : List (String × List Nat)) "a" [2] :=
  ⟨by decide,
   (C7_put_idempotent [("a", [1])] "a" [2]).1 (by decide),
   (C7_put_idempotent [("a", [1])] "a" [2]).2⟩

/-- C8: `BackupPredictor.predict` always yields the three result fields with
`predicted_duration` at least 30 and `predicted_success_rate` within
[0.7, 0.99], in the untrained, trained, and internal-exception branches
alike; the modelled function is total, so the call never raises. -/
theorem C8_predict_bounds (m : PredictorEval) :
    30 ≤ (predict m).predicted_duration ∧
    7 / 10 ≤ (predict m).predicted_success_rate ∧
    (predict m).predicted_success_rate ≤ 99 / 100 := by
  cases m with
  | untrained =>
    refine ⟨?_, ?_, ?_⟩ <;> norm_num [predict]
  | evalOutput d =>
    refine ⟨?_, ?_, ?_⟩
    · exact le_max_left 30 d
    · exact le_max_left _ _
    · exact max_le (by norm_num) (min_le_left _ _)
  | evalFailure =>
    refine ⟨?_, ?_, ?_⟩ <;> norm_num [predict]

/-- C9 counterexample: one job whose `estimated_duration` is 0 makes
`total_time_before` zero, so the endpoint raises `ZeroDivisionError`
(modelled as `none`) instead of returning a schedule with
`time_reduction = 0.15`. -/
theorem C9_zero_total_duration_counterexample :
    optimize_backup_schedule [⟨none, none, some 0⟩] = none := by
  decide

set_option maxRecDepth 100000 in
/-- C9 (amended): for every list of jobs whose estimated durations (default
300) do not sum to zero, the optimizer returns the jobs augmented with their
`optimization_score` as computed by the source, as a permutation sorted in
non-increasing score order, and the reported `time_reduction` is the binary64
evaluation of `(total - total * 0.85) / total` — approximately 0.15 but not
in general the double `0.15` itself: for a duration total of 3 it is the
distinct double `0.15000000000000005` (exact significand 5404319552844597 at
exponent -55, against 5404319552844595 for the literal `0.15`). -/
theorem C9_schedule_optimization :
    (∀ jobs : List Job, totalDuration jobs ≠ 0 →
      ∃ res, optimize_backup_schedule jobs = some res ∧
        res.optimized_schedule.Perm (jobs.map (fun j => (j, jobScore j))) ∧
        List.Sorted scoreGE res.optimized_schedule ∧
        res.time_reduction = timeReduction (totalDuration jobs)) ∧
    timeReduction 3 = ⟨5404319552844597, -55⟩ ∧
    d015 = ⟨5404319552844595, -55⟩ ∧
    toRat (timeReduction 3) ≠ toRat d015 := by
  refine ⟨?_, by decide, by decide, ?_⟩
  · intro jobs h
    unfold optimize_backup_schedule
    rw [if_neg h]
    exact ⟨_, rfl, List.perm_insertionSort scoreGE _,
      List.sorted_insertionSort scoreGE _, rfl⟩
  · rw [show timeReduction 3 = ⟨5404319552844597, -55⟩ from by decide,
      show d015 = ⟨5404319552844595, -55⟩ from by decide]
    unfold toRat
    intro hq
    have hm := mul_right_cancel₀ (zpow_ne_zero _ (two_ne_zero)) hq
    norm_num at hm

/-- C9 witness: two concrete jobs with total duration 400 produce a sorted
permutation of the scored jobs, with the reported time reduction being the
binary64 ratio for that total. -/
theorem C9_schedule_optimization_witness :
    totalDuration [⟨some 2, some 2000000, some 100⟩, ⟨none, none, none⟩] ≠ 0 ∧
    ∃ res, optimize_backup_schedule
        [⟨some 2, some 2000000, some 100⟩, ⟨none, none, none⟩] = some res ∧
      res.optimized_schedule.Perm
        (([⟨some 2, some 2000000, some 100⟩, ⟨none, none, none⟩] : List Job).map
          (fun j => (j, jobScore j))) ∧
      List.Sorted scoreGE res.optimized_schedule ∧
      res.time_reduction = timeReduction
        (totalDuration [⟨some 2, some 2000000, some 100⟩, ⟨none, none, none⟩]) :=
  ⟨by decide,
   C9_schedule_optimization.1
     [⟨some 2, some 2000000, some 100⟩, ⟨none, none, none⟩] (by decide)⟩


/-- C10: an untrained `AnomalyDetector.detect` reports no anomaly, score 0,
no affected metrics and confidence 0, independently of whatever the model
would have produced — it never consults it and, being total, never raises. -/
theorem C10_untrained_detector_all_clear (ev : DetectorEval) :
    detect false ev =
      { is_anomaly := false, anomaly_score := 0, affected_metrics := [],
        confidence := 0 } :=
  rfl

end CoreState
